import Mathlib

namespace DMCPP

/-- Whitespace test used by formatted stream extraction in the classic locale:
space, tab, newline, vertical tab, form feed, carriage return. -/
def isspace (c : Char) : Bool :=
  c == ' ' || c == '\t' || c == '\n' || c == '\x0b' || c == '\x0c' || c == '\r'

/-- One formatted extraction of a string from the buffer: skip leading
whitespace, then take characters up to the next whitespace or the end.
Returns `none` when no character could be extracted (the stream fails). -/
def extract (buffer : List Char) : Option (List Char × List Char) :=
  let b := buffer.dropWhile isspace
  let tok := b.takeWhile (fun c => !isspace c)
  if tok = [] then none else some (tok, b.dropWhile (fun c => !isspace c))

/-- The copy loop of split_whitespace: extract tokens until extraction fails. -/
def split_loop : Nat → List Char → List (List Char)
  | 0, _ => []
  | fuel + 1, buffer =>
    match extract buffer with
    | none => []
    | some (tok, rest) => tok :: split_loop fuel rest

/-- Split a string on whitespace. Every extraction consumes at least one
character, so `length + 1` rounds always reach the failing extraction. -/
def split_whitespace (to_split : List Char) : List (List Char) :=
  split_loop (to_split.length + 1) to_split

/-- Reference definition in the words of the specification: the maximal runs
of non-whitespace characters, left to right, obtained by cutting the string at
every whitespace character and dropping the empty pieces. -/
def maximal_runs (s : List Char) : List (List Char) :=
  (s.splitOnP isspace).filter (fun t => !t.isEmpty)


/-! ## Parameters and the input file (params.cpp) -/

/-- Ways in which parsing stops without a parameter set: the exceptions thrown
by the number conversions and by array allocation (none is caught, so the
process terminates), and `undefined` for an element access past the end of the
token vector or a division the language leaves undefined. -/
inductive Fault where
  | invalid_argument
  | out_of_range
  | bad_array_new_length
  | undefined
  deriving DecidableEq

deriving instance DecidableEq for Except

/-- Element access `split[k]` on the token vector. -/
def token (split : List (List Char)) (k : Nat) : Except Fault (List Char) :=
  match split.get? k with
  | some t => .ok t
  | none => .error .undefined

/-- Value of a run of decimal digits, most significant first. -/
def digits_value (ds : List Char) : Nat :=
  ds.foldl (fun acc c => acc * 10 + (c.toNat - '0'.toNat)) 0

/-- The end of the conversion std::stoi, from the sign and the digits read:
invalid_argument when there is no digit, out_of_range when the value does not
fit a 32-bit int. -/
def int_of_digits (neg : Bool) (ds : List Char) : Except Fault Int :=
  if ds = [] then .error .invalid_argument
  else
    let v : Int := if neg then -(digits_value ds : Int) else (digits_value ds : Int)
    if v < -2147483648 ∨ 2147483647 < v then .error .out_of_range else .ok v

/-- Conversion std::stoi in base 10: skip leading whitespace, read an optional
sign and the longest run of digits. Characters after the digits are ignored. -/
def stoi (s : List Char) : Except Fault Int :=
  let s1 := s.dropWhile isspace
  let neg := s1.head? == some '-'
  let s2 := if s1.head? == some '-' || s1.head? == some '+' then s1.tail else s1
  int_of_digits neg (s2.takeWhile Char.isDigit)

/-- A particle of the template system, as filled in by parse_particle. -/
structure particle (D : Type) where
  name : List Char
  mass : D
  charge : D
  half_spins : Int
  coords : List D
  deriving DecidableEq

/-- The potentials that the input file can add, recorded by the arguments
read_input passes to their constructors (the potential classes themselves are
not part of the sources at hand). -/
inductive external_potential (D : Type) where
  | grid_potential (file : List Char)
  | harmonic_well (omega : D)
  | atomic_potential (charge : D) (coords : List D)
  deriving DecidableEq

/-- The program parameters of namespace params (output files left out). The
type `D` stands for double; its values are only stored, never computed with. -/
structure params (D : Type) where
  write_wavefunction : Bool
  exchange_moves : Bool
  correct_seperations : Bool
  pid : Int
  np : Int
  dimensions : Int
  target_population : Int
  dmc_iterations : Int
  max_pop_ratio : D
  min_pop_ratio : D
  exchange_prob : D
  tau : D
  tau_c_ratio : D
  pre_diffusion : D
  trial_energy : D
  cancel_scheme : List Char
  potentials : List (external_potential D)
  template_system : List (particle D)
  exchange_pairs : List Int
  exchange_values : List Int
  deriving DecidableEq

/-- Default values for program parameters. -/
def default_params (D : Type) [OfScientific D] : params D where
  write_wavefunction := true
  exchange_moves := true
  correct_seperations := false
  pid := 0
  np := 1
  dimensions := 3
  target_population := 1000
  dmc_iterations := 1000
  max_pop_ratio := 4.0
  min_pop_ratio := 0.5
  exchange_prob := 0.5
  tau := 0.01
  tau_c_ratio := 1.0
  pre_diffusion := 1.0
  trial_energy := 0.0
  cancel_scheme := "voronoi".toList
  potentials := []
  template_system := []
  exchange_pairs := []
  exchange_values := []

section parsing

variable {D : Type}

/-- The coordinate loop shared by parse_particle and parse_atomic_potential:
for i below the count, convert token `off + i`. -/
def parse_coords (stod : List Char → Except Fault D) (split : List (List Char)) (off : Nat) :
    Nat → Nat → Except Fault (List D)
  | _, 0 => .ok []
  | i, count + 1 => do
    let t ← token split (off + i)
    let x ← stod t
    let xs ← parse_coords stod split off (i + 1) count
    pure (x :: xs)

/-- Parse a particle from the format
particle name mass charge half_spins x1 x2 x3 ... -/
def parse_particle (stod : List Char → Except Fault D) (p : params D)
    (split : List (List Char)) : Except Fault (params D) := do
  let name ← token split 1
  let mass ← (token split 2) >>= stod
  let charge ← (token split 3) >>= stod
  let half_spins ← (token split 4) >>= stoi
  let coords ← parse_coords stod split 5 0 p.dimensions.toNat
  pure { p with template_system := p.template_system ++ [⟨name, mass, charge, half_spins, coords⟩] }

/-- Parse an atomic potential from the format
atomic_potential charge x1 x2 x3 ... -/
def parse_atomic_potential (stod : List Char → Except Fault D) (p : params D)
    (split : List (List Char)) : Except Fault (params D) := do
  let charge ← (token split 1) >>= stod
  if p.dimensions < 0 then .error .bad_array_new_length
  else do
    let coords ← parse_coords stod split 2 0 p.dimensions.toNat
    pure { p with potentials := p.potentials ++ [.atomic_potential charge coords] }

/-- The test `tag.rfind(pat, 0) == 0`: the tag starts with `pat`. -/
def rfind_at_zero (tag pat : List Char) : Bool := pat.isPrefixOf tag

/-- The walkers-per-process quotient `stoi(split[1]) / np` on 32-bit ints
(truncating division; undefined for a zero divisor or an overflowing quotient). -/
def walkers_per_process (total np : Int) : Except Fault Int :=
  if np = 0 ∨ (total = -2147483648 ∧ np = -1) then .error .undefined
  else .ok (Int.tdiv total np)

/-- Read in the dimensionality: `dimensions = std::stoi(split[1])`. -/
def read_dimensions (p : params D) (split : List (List Char)) : Except Fault (params D) := do
  let v ← (token split 1) >>= stoi
  pure { p with dimensions := v }

/-- Read in the number of DMC walkers and convert to walkers-per-process:
`target_population = std::stoi(split[1])/np`. -/
def read_walkers (p : params D) (split : List (List Char)) : Except Fault (params D) := do
  let v ← (token split 1) >>= stoi
  let q ← walkers_per_process v p.np
  pure { p with target_population := q }

/-- Read in maximum population ratio. -/
def read_max_pop_ratio (stod : List Char → Except Fault D) (p : params D)
    (split : List (List Char)) : Except Fault (params D) := do
  let v ← (token split 1) >>= stod
  pure { p with max_pop_ratio := v }

/-- Read in minimum population ratio. -/
def read_min_pop_ratio (stod : List Char → Except Fault D) (p : params D)
    (split : List (List Char)) : Except Fault (params D) := do
  let v ← (token split 1) >>= stod
  pure { p with min_pop_ratio := v }

/-- Read in the number of DMC iterations. -/
def read_iterations (p : params D) (split : List (List Char)) : Except Fault (params D) := do
  let v ← (token split 1) >>= stoi
  pure { p with dmc_iterations := v }

/-- Read in the DMC timestep. -/
def read_tau (stod : List Char → Except Fault D) (p : params D)
    (split : List (List Char)) : Except Fault (params D) := do
  let v ← (token split 1) >>= stod
  pure { p with tau := v }

/-- Read in ratio of tau_c to tau. -/
def read_tau_c_ratio (stod : List Char → Except Fault D) (p : params D)
    (split : List (List Char)) : Except Fault (params D) := do
  let v ← (token split 1) >>= stod
  pure { p with tau_c_ratio := v }

/-- Read in the pre diffusion amount. -/
def read_pre_diffusion (stod : List Char → Except Fault D) (p : params D)
    (split : List (List Char)) : Except Fault (params D) := do
  let v ← (token split 1) >>= stod
  pure { p with pre_diffusion := v }

/-- Add a potential from a grid to the system. -/
def add_grid_potential (p : params D) (split : List (List Char)) : Except Fault (params D) := do
  let f ← token split 1
  pure { p with potentials := p.potentials ++ [.grid_potential f] }

/-- Add a harmonic well to the system. -/
def add_harmonic_well (stod : List Char → Except Fault D) (p : params D)
    (split : List (List Char)) : Except Fault (params D) := do
  let v ← (token split 1) >>= stod
  pure { p with potentials := p.potentials ++ [.harmonic_well v] }

/-- Read in the exchange probability. -/
def read_exchange_prob (stod : List Char → Except Fault D) (p : params D)
    (split : List (List Char)) : Except Fault (params D) := do
  let v ← (token split 1) >>= stod
  pure { p with exchange_prob := v }

/-- Set the cancellation scheme. -/
def read_cancel_scheme (p : params D) (split : List (List Char)) : Except Fault (params D) := do
  let v ← token split 1
  pure { p with cancel_scheme := v }

/-- Should we write the wavefunctions this run: `write_wavefunction = false`. -/
def set_no_wavefunction (p : params D) : params D := { p with write_wavefunction := false }

/-- Turn off exchange moves. -/
def set_no_exchange (p : params D) : params D := { p with exchange_moves := false }

/-- Turn on seperation corrections. -/
def set_seperation_correction (p : params D) : params D := { p with correct_seperations := true }

/-- The body of the line loop of read_input: what one input line does to the
parameters. Blank lines and comments are skipped; the first matching tag of
the else-if chain decides; a line with any other tag changes nothing. -/
def process_line (stod : List Char → Except Fault D) (p : params D) (line : List Char) :
    Except Fault (params D) :=
  let split := split_whitespace line
  match split with
  | [] => .ok p
  | tag :: _ =>
    -- Ignore comments
    if rfind_at_zero tag "!".toList then .ok p
    else if rfind_at_zero tag "#".toList then .ok p
    else if rfind_at_zero tag "//".toList then .ok p
    else if tag = "dimensions".toList then read_dimensions p split
    else if tag = "walkers".toList then read_walkers p split
    else if tag = "max_pop_ratio".toList then read_max_pop_ratio stod p split
    else if tag = "min_pop_ratio".toList then read_min_pop_ratio stod p split
    else if tag = "iterations".toList then read_iterations p split
    else if tag = "tau".toList then read_tau stod p split
    else if tag = "tau_c_ratio".toList then read_tau_c_ratio stod p split
    else if tag = "pre_diffusion".toList then read_pre_diffusion stod p split
    else if tag = "particle".toList then parse_particle stod p split
    else if tag = "grid_potential".toList then add_grid_potential p split
    else if tag = "harmonic_well".toList then add_harmonic_well stod p split
    else if tag = "atomic_potential".toList then parse_atomic_potential stod p split
    else if tag = "no_wavefunction".toList then .ok (set_no_wavefunction p)
    else if tag = "no_exchange".toList then .ok (set_no_exchange p)
    else if tag = "exchange_prob".toList then read_exchange_prob stod p split
    else if tag = "cancel_scheme".toList then read_cancel_scheme p split
    else if tag = "seperation_correction".toList then .ok (set_seperation_correction p)
    else .ok p

/-- The lines that repeated getline calls deliver: the text between newline
characters; a final piece is a line only if it is not empty. -/
def getlines_from (cur : List Char) : List Char → List (List Char)
  | [] => if cur = [] then [] else [cur.reverse]
  | c :: rest =>
    if c = '\n' then cur.reverse :: getlines_from [] rest
    else getlines_from (c :: cur) rest

/-- Lines of the input file; a file that cannot be opened delivers no line. -/
def getlines (input : Option (List Char)) : List (List Char) :=
  match input with
  | none => []
  | some text => getlines_from [] text

/-- The line loop of read_input, stopping at the first fault. -/
def read_lines (stod : List Char → Except Fault D) (p : params D) :
    List (List Char) → Except Fault (params D)
  | [] => .ok p
  | line :: rest =>
    match process_line stod p line with
    | .ok p1 => read_lines stod p1 rest
    | .error f => .error f

/-- The inner loop of the exchange pass for particle i: for every j below i
with non-zero exchange symmetry, record j, i and the symmetry. The loop
counters are indices into the template and are kept as natural numbers; the
int entries pushed onto exchange_pairs hold them unchanged, a template being
far smaller than the range of int. -/
def exchange_inner (exchange_symmetry : particle D → particle D → Int) (ts : List (particle D))
    (i : Nat) (p1 : particle D) (acc : List Int × List Int) : List Int × List Int :=
  (List.range i).foldl (fun acc j =>
    match ts.get? j with
    | none => acc
    | some p2 =>
      let exchange_sym := exchange_symmetry p1 p2
      -- These particles cannot be exchanged
      if exchange_sym = 0 then acc
      -- Record this exchangable pair
      else (acc.1 ++ [(j : Int), (i : Int)], acc.2 ++ [exchange_sym])) acc

/-- Work out exchange properties of the system: the double loop over the
template, appending to exchange_pairs and exchange_values. -/
def exchange_loop (exchange_symmetry : particle D → particle D → Int) (ts : List (particle D))
    (acc : List Int × List Int) : List Int × List Int :=
  (List.range ts.length).foldl (fun acc i =>
    match ts.get? i with
    | none => acc
    | some p1 => exchange_inner exchange_symmetry ts i p1 acc) acc

/-- Parse the input file. -/
def read_input (stod : List Char → Except Fault D)
    (exchange_symmetry : particle D → particle D → Int) (p : params D)
    (input : Option (List Char)) : Except Fault (params D) :=
  match read_lines stod p (getlines input) with
  | .error f => .error f
  | .ok p1 =>
    let tables := exchange_loop exchange_symmetry p1.template_system
      (p1.exchange_pairs, p1.exchange_values)
    .ok { p1 with exchange_pairs := tables.1, exchange_values := tables.2 }

/-- The total number of DMC walkers reported by output_sim_details:
`target_population*np` on 32-bit ints. -/
def total_walkers (p : params D) : Int :=
  (p.target_population * p.np + 2147483648) % 4294967296 - 2147483648

end parsing

/-- A decimal stand-in for double, used to run the model on concrete inputs:
mantissa and number of decimal places. -/
structure Decimal where
  mantissa : Int
  places : Nat
  deriving DecidableEq

instance : OfScientific Decimal where
  ofScientific m s e := if s then ⟨m, e⟩ else ⟨m * 10 ^ e, 0⟩

/-- Reading of plain decimal numerals (sign, digits, optional fraction) for the
stand-in; rejects tokens that do not start with a digit after the sign. -/
def Decimal.stod (s : List Char) : Except Fault Decimal :=
  let neg := s.head? == some '-'
  let s2 := if s.head? == some '-' || s.head? == some '+' then s.tail else s
  let ds := s2.takeWhile Char.isDigit
  let r := s2.dropWhile Char.isDigit
  let fs := if r.head? == some '.' then r.tail.takeWhile Char.isDigit else []
  if ds = [] ∧ fs = [] then .error .invalid_argument
  else
    let m : Int := digits_value (ds ++ fs)
    .ok ⟨if neg then -m else m, fs.length⟩

/-- Exchange symmetry used when running the model on concrete inputs:
particles of the same name are exchangeable, fermions (odd half_spins) with
sign -1 and bosons with sign +1. -/
def sample_symmetry (p1 p2 : particle Decimal) : Int :=
  if p1.name = p2.name then (if p1.half_spins % 2 = 0 then 1 else -1) else 0

/-! ## Start-up: params::load (params.cpp) -/

/-- Increment `++` of a 32-bit int, wrapping past the largest value. -/
def int_incr (i : Int) : Int :=
  (i + 1 + 2147483648) % 4294967296 - 2147483648

section loading

variable {D : Type}

end loading

/-- The member functions of walker_collection that run_dmc calls. Their
implementation is not part of the sources at hand, so they are parameters:
`S` is the program state they act on (walkers, random numbers, output files,
trial energy), `W` the type of a snapshot. Each may read the iteration number
but none writes the loop variables. -/
structure walker_ops (S W : Type) where
  copy : Int → S → W × S
  diffuse : Int → S → S
  apply_cancellations : Int → W → S → S
  make_exchange_moves : Int → S → S
  correct_seperations : Int → S → S
  branch : Int → S → S
  write_output : Int → S → S
  delete_last : Int → W → S → S

/-- The calls made inside the loop of run_dmc. -/
inductive call (W : Type) where
  | copy
  | diffuse
  | apply_cancellations (walkers_last : W)
  | make_exchange_moves
  | correct_seperations
  | branch
  | write_output
  | delete_last (walkers_last : W)
  deriving DecidableEq

section dmc

variable {S W : Type}

/-- Perform one call on the collection and append it to the log, tagged with
the iteration number. -/
def record (dmc_iteration : Int) (c : call W) (f : S → S)
    (st : S × List (Int × call W)) : S × List (Int × call W) :=
  (f st.1, st.2 ++ [(dmc_iteration, c)])

/-- The body of the loop of run_dmc. -/
def dmc_body (ops : walker_ops S W) (dmc_iteration : Int)
    (st : S × List (Int × call W)) : S × List (Int × call W) :=
  let walkers_last := (ops.copy dmc_iteration st.1).1
  let st := record dmc_iteration .copy (fun s => (ops.copy dmc_iteration s).2) st
  -- Apply various propagation steps
  let st := record dmc_iteration .diffuse (ops.diffuse dmc_iteration) st
  let st := record dmc_iteration (.apply_cancellations walkers_last)
    (ops.apply_cancellations dmc_iteration walkers_last) st
  let st := record dmc_iteration .make_exchange_moves (ops.make_exchange_moves dmc_iteration) st
  let st := record dmc_iteration .correct_seperations (ops.correct_seperations dmc_iteration) st
  let st := record dmc_iteration .branch (ops.branch dmc_iteration) st
  let st := record dmc_iteration .write_output (ops.write_output dmc_iteration) st
  record dmc_iteration (.delete_last walkers_last) (ops.delete_last dmc_iteration walkers_last) st

/-- State of the loop of run_dmc when the model stops: whether the loop
condition was found false, the value of dmc_iteration, the program state and
the log of calls. -/
structure dmc_result (S W : Type) where
  finished : Bool
  dmc_iteration : Int
  state : S
  log : List (Int × call W)

/-- The loop of run_dmc from a given value of dmc_iteration, for at most
`fuel` evaluations of the loop condition. -/
def dmc_loop (ops : walker_ops S W) (dmc_iterations : Int) :
    Nat → Int → S × List (Int × call W) → dmc_result S W
  | 0, dmc_iteration, st => ⟨false, dmc_iteration, st.1, st.2⟩
  | fuel + 1, dmc_iteration, st =>
    if dmc_iteration ≤ dmc_iterations then
      dmc_loop ops dmc_iterations fuel (int_incr dmc_iteration) (dmc_body ops dmc_iteration st)
    else ⟨true, dmc_iteration, st.1, st.2⟩

/-- Run the DMC calculation: the loop starts at iteration 1 on the freshly
initialized walkers. -/
def run_dmc (ops : walker_ops S W) (dmc_iterations : Int) (walkers : S) (fuel : Nat) :
    dmc_result S W :=
  dmc_loop ops dmc_iterations fuel 1 (walkers, [])

/-- The effect of one iteration on the program state: the composition of the
calls, without the log. -/
def dmc_step (ops : walker_ops S W) (k : Int) (s : S) : S :=
  let walkers_last := (ops.copy k s).1
  ops.delete_last k walkers_last
    (ops.write_output k (ops.branch k (ops.correct_seperations k (ops.make_exchange_moves k
      (ops.apply_cancellations k walkers_last (ops.diffuse k (ops.copy k s).2))))))

/-- The calls of one iteration, in order: the snapshot, the five pipeline
operations and the output, followed by the release of the snapshot. -/
def iteration_calls (k : Int) (walkers_last : W) : List (Int × call W) :=
  [(k, .copy), (k, .diffuse), (k, .apply_cancellations walkers_last), (k, .make_exchange_moves),
   (k, .correct_seperations), (k, .branch), (k, .write_output), (k, .delete_last walkers_last)]

/-- The log expected from `count` consecutive iterations starting at number
`k` in state `s`; each snapshot is the copy of the state at the start of its
own iteration, and the number moves on by the increment of the loop. -/
def expected_log (ops : walker_ops S W) : Nat → Int → S → List (Int × call W)
  | 0, _, _ => []
  | count + 1, k, s =>
    iteration_calls k (ops.copy k s).1 ++ expected_log ops count (int_incr k) (dmc_step ops k s)

/-- The program state after `count` consecutive iterations starting at `k`. -/
def state_after (ops : walker_ops S W) : Nat → Int → S → S
  | 0, _, s => s
  | count + 1, k, s => state_after ops count (int_incr k) (dmc_step ops k s)

/-- The iteration numbers at which the loop body was entered, read off the log. -/
def body_runs (log : List (Int × call W)) : List Int :=
  log.filterMap (fun e => match e.2 with | .copy => some e.1 | _ => none)

/-- The calls made on the collection `walkers` itself (all but the release of
the snapshot), read off the log. -/
def collection_calls (log : List (Int × call W)) : List (Int × call W) :=
  log.filter (fun e => match e.2 with | .delete_last _ => false | _ => true)

end dmc

/-- A small instance of the walker operations for running the model: the
state is a list of integers, the snapshot a copy of it. -/
def sample_ops : walker_ops (List Int) (List Int) where
  copy := fun _ s => (s, s)
  diffuse := fun k s => s.map (fun x => x + k)
  apply_cancellations := fun _ last s => s.filter (fun x => !last.contains x)
  make_exchange_moves := fun _ s => s.reverse
  correct_seperations := fun _ s => s
  branch := fun _ s => s ++ s
  write_output := fun _ s => s
  delete_last := fun _ _ s => s

/-! ## Notions used to state the properties -/

/-- A line that is blank (empty or only whitespace) or whose first token
begins with one of the comment markers. -/
def blank_or_comment (line : List Char) : Bool :=
  line.all isspace ||
  match split_whitespace line with
  | [] => false
  | tag :: _ =>
    "!".toList.isPrefixOf tag || "#".toList.isPrefixOf tag || "//".toList.isPrefixOf tag

section exchange_notions

variable {D : Type}

/-- The exchange symmetry computed between template particles b and a, as the
call `template_system[b]->exchange_symmetry(template_system[a])`; 0 when an
index is not a template index. -/
def symmetry_at (exchange_symmetry : particle D → particle D → Int) (ts : List (particle D))
    (b a : Nat) : Int :=
  match ts.get? b, ts.get? a with
  | some pb, some pa => exchange_symmetry pb pa
  | _, _ => 0

/-- The index pairs a < b of the template with non-zero exchange symmetry. -/
def exchangeable_pairs (exchange_symmetry : particle D → particle D → Int)
    (ts : List (particle D)) : Finset (Nat × Nat) :=
  (Finset.range ts.length ×ˢ Finset.range ts.length).filter
    (fun ab => ab.1 < ab.2 ∧ symmetry_at exchange_symmetry ts ab.2 ab.1 ≠ 0)

/-- The entries the double loop records for particle i: one triple
(j, i, symmetry) for every j below i with non-zero symmetry, j increasing. -/
def table_row (exchange_symmetry : particle D → particle D → Int) (ts : List (particle D))
    (i : Nat) : List (Nat × Nat × Int) :=
  (List.range i).filterMap (fun j =>
    if symmetry_at exchange_symmetry ts i j = 0 then none
    else some (j, i, symmetry_at exchange_symmetry ts i j))

/-- The entries the double loop records, in the order it records them. -/
def table_entries (exchange_symmetry : particle D → particle D → Int)
    (ts : List (particle D)) : List (Nat × Nat × Int) :=
  (List.range ts.length).flatMap (table_row exchange_symmetry ts)

end exchange_notions

/-- The flattened pair list of a list of entries. -/
def table_pairs (l : List (Nat × Nat × Int)) : List Int :=
  l.flatMap (fun t => [(t.1 : Int), (t.2.1 : Int)])

/-- The sign list of a list of entries. -/
def table_values (l : List (Nat × Nat × Int)) : List Int :=
  l.map (fun t => t.2.2)

/-- The index pair of a table entry. -/
def entry_key (t : Nat × Nat × Int) : Nat × Nat := (t.1, t.2.1)

/-- A sample input: two electrons in one dimension. -/
def two_electron_input : Option (List Char) :=
  some "dimensions 1\nparticle e 1 -1 1 0\nparticle e 1 -1 1 2\n".toList

/-- The parameters read_input returns on the two-electron input. -/
def two_electron_params : params Decimal :=
  { default_params Decimal with
    dimensions := 1
    template_system :=
      [⟨"e".toList, ⟨1, 0⟩, ⟨-1, 0⟩, 1, [⟨0, 0⟩]⟩, ⟨"e".toList, ⟨1, 0⟩, ⟨-1, 0⟩, 1, [⟨2, 0⟩]⟩]
    exchange_pairs := [0, 1]
    exchange_values := [-1] }

/-! ## Properties -/

theorem maximal_runs_space (c : Char) (cs : List Char) (h : isspace c = true) :
    maximal_runs (c :: cs) = maximal_runs cs := by
  simp [maximal_runs, List.splitOnP_cons, h]

theorem maximal_runs_nil : maximal_runs [] = [] := by
  simp [maximal_runs, List.splitOnP_nil]

theorem maximal_runs_token (tok : List Char) (h : ∀ c ∈ tok, isspace c = false)
    (hne : tok ≠ []) : maximal_runs tok = [tok] := by
  have : tok.splitOnP isspace = [tok] := List.splitOnP_eq_single _ _ (by simpa using h)
  simp [maximal_runs, this, hne]

theorem maximal_runs_token_sep (tok : List Char) (h : ∀ c ∈ tok, isspace c = false)
    (hne : tok ≠ []) (sep : Char) (hsep : isspace sep = true) (rest : List Char) :
    maximal_runs (tok ++ sep :: rest) = tok :: maximal_runs rest := by
  have : (tok ++ sep :: rest).splitOnP isspace = tok :: rest.splitOnP isspace :=
    List.splitOnP_first _ _ (by simpa using h) sep hsep rest
  simp [maximal_runs, this, hne]

theorem maximal_runs_dropWhile (s : List Char) :
    maximal_runs (s.dropWhile isspace) = maximal_runs s := by
  induction s with
  | nil => rfl
  | cons c cs ih =>
    by_cases h : isspace c = true
    · rw [List.dropWhile_cons_of_pos h, ih, maximal_runs_space c cs h]
    · rw [List.dropWhile_cons_of_neg h]

/-- The remainder left by reading a token is empty or starts with whitespace. -/
theorem dropWhile_nonspace_head (b : List Char) :
    b.dropWhile (fun c => !isspace c) = [] ∨
    ∃ sep r, b.dropWhile (fun c => !isspace c) = sep :: r ∧ isspace sep = true := by
  cases hr : b.dropWhile (fun c => !isspace c) with
  | nil => exact Or.inl rfl
  | cons sep r =>
    refine Or.inr ⟨sep, r, rfl, ?_⟩
    have := List.head_dropWhile_not (fun c => !isspace c) b (by simp [hr])
    simpa [hr] using this

theorem takeWhile_nonspace_mem (b : List Char) :
    ∀ c ∈ b.takeWhile (fun c => !isspace c), isspace c = false := by
  intro c hc
  simpa using List.mem_takeWhile_imp hc

theorem maximal_runs_append (tok rest : List Char) (h : ∀ c ∈ tok, isspace c = false)
    (hne : tok ≠ [])
    (hrest : rest = [] ∨ ∃ sep r, rest = sep :: r ∧ isspace sep = true) :
    maximal_runs (tok ++ rest) = tok :: maximal_runs rest := by
  rcases hrest with rfl | ⟨sep, r, rfl, hsep⟩
  · simp [maximal_runs_token tok h hne, maximal_runs_nil]
  · rw [maximal_runs_token_sep tok h hne sep hsep r, maximal_runs_space sep r hsep]

/-- A buffer from which nothing can be extracted holds only whitespace. -/
theorem extract_none (buffer : List Char) (h : extract buffer = none) :
    buffer.dropWhile isspace = [] := by
  unfold extract at h
  simp only at h
  split at h
  · rename_i htok
    cases hb : buffer.dropWhile isspace with
    | nil => rfl
    | cons c cs =>
      exfalso
      have hc := List.head_dropWhile_not isspace buffer (by simp [hb])
      simp only [hb, List.head_cons] at hc
      rw [hb, List.takeWhile_cons] at htok
      simp [hc] at htok
  · simp at h

theorem extract_some (buffer tok rest : List Char) (h : extract buffer = some (tok, rest)) :
    tok ≠ [] ∧ (∀ c ∈ tok, isspace c = false) ∧
    buffer.dropWhile isspace = tok ++ rest ∧
    (rest = [] ∨ ∃ sep r, rest = sep :: r ∧ isspace sep = true) := by
  unfold extract at h
  simp only at h
  split at h
  · simp at h
  · rename_i htok
    simp only [Option.some.injEq, Prod.mk.injEq] at h
    obtain ⟨h1, h2⟩ := h
    subst h1; subst h2
    exact ⟨htok, takeWhile_nonspace_mem _, (List.takeWhile_append_dropWhile _ _).symm,
      dropWhile_nonspace_head _⟩

theorem split_loop_eq_maximal_runs (fuel : Nat) :
    ∀ buffer : List Char, buffer.length < fuel → split_loop fuel buffer = maximal_runs buffer := by
  induction fuel with
  | zero => intro buffer h; omega
  | succ fuel ih =>
    intro buffer hlen
    rw [split_loop]
    cases hex : extract buffer with
    | none =>
      simp only
      rw [← maximal_runs_dropWhile, extract_none buffer hex, maximal_runs_nil]
    | some tr =>
      obtain ⟨tok, rest⟩ := tr
      obtain ⟨hne, hgood, hsplit, hrest⟩ := extract_some buffer tok rest hex
      simp only
      have hlen2 : rest.length < fuel := by
        have h1 : (buffer.dropWhile isspace).length ≤ buffer.length :=
          (List.dropWhile_sublist _).length_le
        have h2 : (tok ++ rest).length = tok.length + rest.length := List.length_append _ _
        have h3 : 0 < tok.length := List.length_pos.mpr hne
        rw [hsplit] at h1
        omega
      rw [ih rest hlen2, ← maximal_runs_dropWhile buffer, hsplit,
        maximal_runs_append tok rest hgood hne hrest]

theorem split_whitespace_eq_maximal_runs (s : List Char) :
    split_whitespace s = maximal_runs s :=
  split_loop_eq_maximal_runs _ s (Nat.lt_succ_self _)

theorem split_loop_tokens (fuel : Nat) :
    ∀ buffer : List Char, ∀ t ∈ split_loop fuel buffer,
      t ≠ [] ∧ ∀ c ∈ t, isspace c = false := by
  induction fuel with
  | zero => intro buffer t ht; simp [split_loop] at ht
  | succ fuel ih =>
    intro buffer t ht
    rw [split_loop] at ht
    cases hex : extract buffer with
    | none => simp [hex] at ht
    | some tr =>
      obtain ⟨tok, rest⟩ := tr
      obtain ⟨hne, hgood, -, -⟩ := extract_some buffer tok rest hex
      simp only [hex, List.mem_cons] at ht
      rcases ht with rfl | ht
      · exact ⟨hne, hgood⟩
      · exact ih rest t ht

theorem split_whitespace_eq_nil_iff (s : List Char) :
    split_whitespace s = [] ↔ ∀ c ∈ s, isspace c = true := by
  rw [split_whitespace, split_loop]
  constructor
  · intro h
    cases hex : extract s with
    | none =>
      have := extract_none s hex
      simpa [List.dropWhile_eq_nil_iff] using this
    | some tr => simp [hex] at h
  · intro h
    have hd : s.dropWhile isspace = [] := by simpa [List.dropWhile_eq_nil_iff] using h
    simp [extract, hd]

theorem intercalate_space_cons_cons (t t2 : List Char) (ts : List (List Char)) :
    List.intercalate [' '] (t :: t2 :: ts) = t ++ ' ' :: List.intercalate [' '] (t2 :: ts) := by
  simp [List.intercalate, List.intersperse]

theorem maximal_runs_intercalate (toks : List (List Char))
    (h : ∀ t ∈ toks, t ≠ [] ∧ ∀ c ∈ t, isspace c = false) :
    maximal_runs (List.intercalate [' '] toks) = toks := by
  induction toks with
  | nil => simp [List.intercalate, maximal_runs_nil]
  | cons t ts ih =>
    have ht := h t (List.mem_cons_self _ _)
    cases ts with
    | nil =>
      have : List.intercalate [' '] [t] = t := by simp [List.intercalate, List.intersperse]
      rw [this, maximal_runs_token t ht.2 ht.1]
    | cons t2 ts =>
      rw [intercalate_space_cons_cons,
        maximal_runs_token_sep t ht.2 ht.1 ' ' (by decide),
        ih (fun x hx => h x (List.mem_cons_of_mem _ hx))]

theorem filter_dropWhile_isspace (s : List Char) :
    (s.dropWhile isspace).filter (fun c => !isspace c) = s.filter (fun c => !isspace c) := by
  induction s with
  | nil => rfl
  | cons c cs ih =>
    by_cases h : isspace c = true
    · rw [List.dropWhile_cons_of_pos h, ih, List.filter_cons_of_neg (by simp [h])]
    · rw [List.dropWhile_cons_of_neg h]

/-- The tokens, put together, are the non-whitespace characters in order. -/
theorem split_loop_join (fuel : Nat) :
    ∀ buffer : List Char, buffer.length < fuel →
      (split_loop fuel buffer).flatten = buffer.filter (fun c => !isspace c) := by
  induction fuel with
  | zero => intro buffer h; omega
  | succ fuel ih =>
    intro buffer hlen
    rw [split_loop]
    cases hex : extract buffer with
    | none =>
      have hd := extract_none buffer hex
      rw [← filter_dropWhile_isspace, hd]
      rfl
    | some tr =>
      obtain ⟨tok, rest⟩ := tr
      obtain ⟨hne, hgood, hsplit, -⟩ := extract_some buffer tok rest hex
      have hlen2 : rest.length < fuel := by
        have h1 : (buffer.dropWhile isspace).length ≤ buffer.length :=
          (List.dropWhile_sublist _).length_le
        have h2 : (tok ++ rest).length = tok.length + rest.length := List.length_append _ _
        have h3 : 0 < tok.length := List.length_pos.mpr hne
        rw [hsplit] at h1
        omega
      have htok : tok.filter (fun c => !isspace c) = tok :=
        List.filter_eq_self.mpr (fun c hc => by simp [hgood c hc])
      simp only [List.flatten_cons]
      rw [ih rest hlen2, ← filter_dropWhile_isspace buffer, hsplit, List.filter_append, htok]

/-- C10: split_whitespace returns the maximal runs of non-whitespace characters
in left-to-right order; every token is non-empty and free of whitespace, and
the tokens put together are the non-whitespace characters of the string in
order; the result is empty exactly when the string holds only whitespace; and
joining the tokens with single spaces and splitting again gives back the same
tokens. -/
theorem split_whitespace_spec (s : List Char) :
    split_whitespace s = maximal_runs s ∧
    (∀ t ∈ split_whitespace s, t ≠ [] ∧ ∀ c ∈ t, isspace c = false) ∧
    (split_whitespace s).flatten = s.filter (fun c => !isspace c) ∧
    (split_whitespace s = [] ↔ ∀ c ∈ s, isspace c = true) ∧
    split_whitespace (List.intercalate [' '] (split_whitespace s)) = split_whitespace s := by
  refine ⟨split_whitespace_eq_maximal_runs s, split_loop_tokens _ s,
    split_loop_join _ s (Nat.lt_succ_self _), split_whitespace_eq_nil_iff s, ?_⟩
  rw [split_whitespace_eq_maximal_runs (List.intercalate [' '] (split_whitespace s))]
  exact maximal_runs_intercalate _ (split_loop_tokens _ s)

/-! ### Lines of the input file -/

section parsing_lemmas

variable {D : Type}

theorem bind_eq_ok {α β : Type} (x : Except Fault α) (f : α → Except Fault β) (b : β) :
    x >>= f = .ok b ↔ ∃ a, x = .ok a ∧ f a = .ok b := by
  cases x with
  | error e => simp [bind, Except.bind]
  | ok a => simp [bind, Except.bind]

theorem parse_particle_ok (stod : List Char → Except Fault D) (p p1 : params D)
    (split : List (List Char)) (h : parse_particle stod p split = .ok p1) :
    ∃ x, p1 = { p with template_system := p.template_system ++ [x] } := by
  unfold parse_particle at h
  simp only [bind_eq_ok, pure, Except.pure, Except.ok.injEq] at h
  obtain ⟨name, -, mass, -, charge, -, hs, -, coords, -, rfl⟩ := h
  exact ⟨_, rfl⟩

theorem parse_atomic_potential_ok (stod : List Char → Except Fault D) (p p1 : params D)
    (split : List (List Char)) (h : parse_atomic_potential stod p split = .ok p1) :
    ∃ x, p1 = { p with potentials := p.potentials ++ [x] } := by
  unfold parse_atomic_potential at h
  simp only [bind_eq_ok, pure, Except.pure, Except.ok.injEq] at h
  obtain ⟨charge, -, h⟩ := h
  split at h
  · simp at h
  · simp only [bind_eq_ok, Except.ok.injEq] at h
    obtain ⟨coords, -, rfl⟩ := h
    exact ⟨_, rfl⟩

/-- A property of the outcome of an else-if step follows from the property of
both branches. -/
theorem ite_outcome {c : Prop} [Decidable c] {a b : Except Fault (params D)}
    {Q : params D → Prop} (ha : ∀ p1, a = .ok p1 → Q p1) (hb : ∀ p1, b = .ok p1 → Q p1) :
    ∀ p1, (if c then a else b) = .ok p1 → Q p1 := by
  intro p1 h
  by_cases hc : c
  · rw [if_pos hc] at h; exact ha p1 h
  · rw [if_neg hc] at h; exact hb p1 h

/-- No input line assigns trial_energy, np or pid, and none touches the
exchange vectors. -/
theorem process_line_frame (stod : List Char → Except Fault D) (p : params D)
    (line : List Char) :
    ∀ p1, process_line stod p line = .ok p1 →
      p1.trial_energy = p.trial_energy ∧ p1.np = p.np ∧ p1.pid = p.pid ∧
      p1.exchange_pairs = p.exchange_pairs ∧ p1.exchange_values = p.exchange_values := by
  unfold process_line
  dsimp only
  cases split_whitespace line with
  | nil => intro p1 h; cases h; exact ⟨rfl, rfl, rfl, rfl, rfl⟩
  | cons tag rest =>
    dsimp only
    repeat' refine ite_outcome (Q := fun q => q.trial_energy = p.trial_energy ∧ q.np = p.np ∧ q.pid = p.pid ∧ q.exchange_pairs = p.exchange_pairs ∧ q.exchange_values = p.exchange_values) ?_ ?_
    all_goals intro p1 h
    all_goals first
      | (cases h; exact ⟨rfl, rfl, rfl, rfl, rfl⟩)
      | (refine Exists.elim (parse_particle_ok stod p p1 _ h) ?_; rintro x rfl
         exact ⟨rfl, rfl, rfl, rfl, rfl⟩)
      | (refine Exists.elim (parse_atomic_potential_ok stod p p1 _ h) ?_; rintro x rfl
         exact ⟨rfl, rfl, rfl, rfl, rfl⟩)
      | (simp only [read_dimensions, read_max_pop_ratio, read_min_pop_ratio, read_iterations,
           read_tau, read_tau_c_ratio, read_pre_diffusion, add_grid_potential, add_harmonic_well,
           read_exchange_prob, read_cancel_scheme,
           bind_eq_ok, pure, Except.pure, Except.ok.injEq] at h
         obtain ⟨v, -, rfl⟩ := h; exact ⟨rfl, rfl, rfl, rfl, rfl⟩)
      | (simp only [read_walkers, bind_eq_ok, pure, Except.pure, Except.ok.injEq] at h
         obtain ⟨v, -, q, -, rfl⟩ := h; exact ⟨rfl, rfl, rfl, rfl, rfl⟩)

theorem read_lines_frame (stod : List Char → Except Fault D) (lines : List (List Char)) :
    ∀ p p1 : params D, read_lines stod p lines = .ok p1 →
      p1.trial_energy = p.trial_energy ∧ p1.np = p.np ∧ p1.pid = p.pid ∧
      p1.exchange_pairs = p.exchange_pairs ∧ p1.exchange_values = p.exchange_values := by
  induction lines with
  | nil => intro p p1 h; cases h; exact ⟨rfl, rfl, rfl, rfl, rfl⟩
  | cons line rest ih =>
    intro p p1 h
    rw [read_lines] at h
    cases hp : process_line stod p line with
    | error f => rw [hp] at h; cases h
    | ok p2 =>
      rw [hp] at h
      obtain ⟨a1, a2, a3, a4, a5⟩ := ih p2 p1 h
      obtain ⟨b1, b2, b3, b4, b5⟩ := process_line_frame stod p line p2 hp
      exact ⟨a1.trans b1, a2.trans b2, a3.trans b3, a4.trans b4, a5.trans b5⟩

theorem read_input_frame (stod : List Char → Except Fault D)
    (exchange_symmetry : particle D → particle D → Int) (p p1 : params D)
    (input : Option (List Char)) (h : read_input stod exchange_symmetry p input = .ok p1) :
    p1.trial_energy = p.trial_energy ∧ p1.np = p.np ∧ p1.pid = p.pid := by
  unfold read_input at h
  cases hl : read_lines stod p (getlines input) with
  | error f => rw [hl] at h; cases h
  | ok p2 =>
    rw [hl] at h
    cases h
    obtain ⟨a1, a2, a3, -, -⟩ := read_lines_frame stod _ p p2 hl
    exact ⟨a1, a2, a3⟩

end parsing_lemmas

section trial_energy

variable {D : Type}

/-- C6 (as amended): read_input never assigns trial_energy. Whenever it
completes, trial_energy still has the value it had before the call, which for
the start-up state is the built-in default 0.0. -/
theorem trial_energy_unchanged_by_read_input [OfScientific D]
    (stod : List Char → Except Fault D)
    (exchange_symmetry : particle D → particle D → Int) (p p1 : params D)
    (input : Option (List Char)) (np pid : Int)
    (hstart : p = { default_params D with np := np, pid := pid })
    (h : read_input stod exchange_symmetry p input = .ok p1) :
    p1.trial_energy = p.trial_energy ∧ p1.trial_energy = (0.0 : D) := by
  have h1 := (read_input_frame stod exchange_symmetry p p1 input h).1
  refine ⟨h1, ?_⟩
  rw [h1, hstart]
  rfl

theorem trial_energy_unchanged_by_read_input_witness :
    read_input Decimal.stod sample_symmetry (default_params Decimal)
      (some "tau 0.02\niterations 50\n".toList)
      = .ok { default_params Decimal with tau := ⟨2, 2⟩, dmc_iterations := 50 } ∧
    ({ default_params Decimal with tau := ⟨2, 2⟩, dmc_iterations := 50 } : params Decimal).trial_energy
      = (0.0 : Decimal) :=
  ⟨by decide,
   (trial_energy_unchanged_by_read_input Decimal.stod sample_symmetry (default_params Decimal)
      { default_params Decimal with tau := ⟨2, 2⟩, dmc_iterations := 50 }
      (some "tau 0.02\niterations 50\n".toList) 1 0 (by decide) (by decide)).2⟩

/-- C6 as stated fails: there is no input file for which read_input completes
with a trial_energy different from the default 0.0, whatever the type of
doubles, the number conversion and the exchange symmetry are. -/
theorem no_input_sets_trial_energy :
    ¬ ∃ (D : Type) (_ : OfScientific D) (stod : List Char → Except Fault D)
        (exchange_symmetry : particle D → particle D → Int)
        (input : Option (List Char)) (p1 : params D),
        read_input stod exchange_symmetry (default_params D) input = .ok p1 ∧
        p1.trial_energy ≠ (0.0 : D) := by
  rintro ⟨D, _, stod, exchange_symmetry, input, p1, h, hne⟩
  exact hne (read_input_frame stod exchange_symmetry _ p1 input h).1

end trial_energy

section comments

variable {D : Type}

theorem process_line_blank_or_comment (stod : List Char → Except Fault D) (p : params D)
    (line : List Char) (h : blank_or_comment line = true) :
    process_line stod p line = .ok p := by
  unfold process_line
  dsimp only
  unfold blank_or_comment at h
  cases hs : split_whitespace line with
  | nil => rfl
  | cons tag rest =>
    rw [hs] at h
    dsimp only at h ⊢
    have hblank : line.all isspace = false := by
      cases hall : line.all isspace with
      | false => rfl
      | true =>
        have : split_whitespace line = [] :=
          (split_whitespace_eq_nil_iff line).mpr (by simpa using hall)
        rw [hs] at this
        cases this
    rw [hblank, Bool.false_or] at h
    by_cases c1 : rfind_at_zero tag "!".toList = true
    · rw [if_pos c1]
    rw [if_neg c1]
    by_cases c2 : rfind_at_zero tag "#".toList = true
    · rw [if_pos c2]
    rw [if_neg c2]
    by_cases c3 : rfind_at_zero tag "//".toList = true
    · rw [if_pos c3]
    exfalso
    simp only [rfind_at_zero] at c1 c2 c3
    simp only [Bool.or_eq_true] at h
    rcases h with (h | h) | h
    · exact c1 h
    · exact c2 h
    · exact c3 h

theorem read_lines_blank_or_comment (stod : List Char → Except Fault D) (p : params D)
    (lines : List (List Char)) (h : ∀ l ∈ lines, blank_or_comment l = true) :
    read_lines stod p lines = .ok p := by
  induction lines with
  | nil => rfl
  | cons line rest ih =>
    rw [read_lines, process_line_blank_or_comment stod p line (h line (List.mem_cons_self _ _))]
    exact ih (fun l hl => h l (List.mem_cons_of_mem _ hl))

/-- C9: a line that is blank or whose first token begins with `!`, `#` or `//`
leaves every parameter unchanged, whatever follows on the line; the line loop
over an input made only of such lines returns the parameters it started from,
and read_input on such an input returns exactly the default parameter values
(with the process count and rank obtained at start-up). -/
theorem comment_lines_change_nothing [OfScientific D] (stod : List Char → Except Fault D)
    (exchange_symmetry : particle D → particle D → Int) (p : params D) (line : List Char)
    (input : Option (List Char)) (np pid : Int)
    (hline : blank_or_comment line = true)
    (hinput : ∀ l ∈ getlines input, blank_or_comment l = true) :
    process_line stod p line = .ok p ∧
    read_lines stod p (getlines input) = .ok p ∧
    read_input stod exchange_symmetry (default_params D) input = .ok (default_params D) ∧
    read_input stod exchange_symmetry { default_params D with np := np, pid := pid } input
      = .ok { default_params D with np := np, pid := pid } := by
  refine ⟨process_line_blank_or_comment stod p line hline,
    read_lines_blank_or_comment stod p _ hinput, ?_, ?_⟩
  · unfold read_input
    rw [read_lines_blank_or_comment stod _ _ hinput]
    rfl
  · unfold read_input
    rw [read_lines_blank_or_comment stod _ _ hinput]
    rfl

theorem comment_lines_change_nothing_witness :
    blank_or_comment "//tau 7 walkers x".toList = true ∧
    (∀ l ∈ getlines (some "# setup\n\n  \t\n!tau 1\n//dimensions 2 particle\n".toList),
      blank_or_comment l = true) ∧
    process_line Decimal.stod (default_params Decimal) "//tau 7 walkers x".toList
      = .ok (default_params Decimal) ∧
    read_input Decimal.stod sample_symmetry (default_params Decimal)
      (some "# setup\n\n  \t\n!tau 1\n//dimensions 2 particle\n".toList)
      = .ok (default_params Decimal) :=
  have h := comment_lines_change_nothing Decimal.stod sample_symmetry (default_params Decimal)
    "//tau 7 walkers x".toList (some "# setup\n\n  \t\n!tau 1\n//dimensions 2 particle\n".toList)
    1 0 (by decide) (by decide)
  ⟨by decide, by decide, h.1, h.2.2.1⟩

end comments

section conversion_faults

variable {D : Type}

theorem read_lines_append (stod : List Char → Except Fault D) (pre post : List (List Char)) :
    ∀ p : params D, read_lines stod p (pre ++ post) =
      match read_lines stod p pre with
      | .ok q => read_lines stod q post
      | .error f => .error f := by
  induction pre with
  | nil => intro p; rfl
  | cons line rest ih =>
    intro p
    rw [List.cons_append, read_lines, read_lines]
    cases process_line stod p line with
    | error f => rfl
    | ok p1 => exact ih p1

end conversion_faults

section walkers

variable {D : Type}

/-- A value accepted by stoi fits a 32-bit int. -/
theorem stoi_range (s : List Char) (v : Int) (h : stoi s = .ok v) :
    -2147483648 ≤ v ∧ v ≤ 2147483647 := by
  unfold stoi int_of_digits at h
  dsimp only at h
  split_ifs at h <;> cases h <;> omega

theorem total_walkers_of_quotient (total np : Int) (h0 : 0 ≤ total) (h1 : total ≤ 2147483647)
    (hnp : 1 ≤ np) :
    (Int.tdiv total np * np + 2147483648) % 4294967296 - 2147483648 = total - total % np := by
  have hq : Int.tdiv total np = total / np := Int.tdiv_eq_ediv h0 (by omega)
  have hdm : np * (total / np) + total % np = total := Int.ediv_add_emod total np
  have hm0 : 0 ≤ total % np := Int.emod_nonneg _ (by omega)
  have hmul : 0 ≤ np * (total / np) :=
    Int.mul_nonneg (by omega) (Int.ediv_nonneg h0 (by omega))
  have hprod : Int.tdiv total np * np = total - total % np := by
    rw [hq, mul_comm]; omega
  rw [hprod]
  omega

/-- A property of the outcome of an else-if step follows from the property of
both branches, each under what the condition says. -/
theorem ite_outcome_cond {c : Prop} [Decidable c] {a b : Except Fault (params D)}
    {Q : params D → Prop} (ha : c → ∀ p1, a = .ok p1 → Q p1)
    (hb : ¬ c → ∀ p1, b = .ok p1 → Q p1) :
    ∀ p1, (if c then a else b) = .ok p1 → Q p1 := by
  intro p1 h
  by_cases hc : c
  · rw [if_pos hc] at h; exact ha hc p1 h
  · rw [if_neg hc] at h; exact hb hc p1 h

/-- Only a walkers line assigns target_population. -/
theorem process_line_target (stod : List Char → Except Fault D) (p : params D)
    (line : List Char) (hne : (split_whitespace line).head? ≠ some "walkers".toList) :
    ∀ p1, process_line stod p line = .ok p1 → p1.target_population = p.target_population := by
  unfold process_line
  dsimp only
  cases hs : split_whitespace line with
  | nil => intro p1 h; cases h; rfl
  | cons tag rest =>
    have hw : tag ≠ "walkers".toList := by
      intro e
      apply hne
      rw [hs, e]
      rfl
    dsimp only
    repeat' refine ite_outcome_cond (Q := fun q => q.target_population = p.target_population) (fun hc => ?_) (fun hc => ?_)
    all_goals intro p1 h
    all_goals first
      | exact absurd hc hw
      | (cases h; rfl)
      | (refine Exists.elim (parse_particle_ok stod p p1 _ h) ?_; rintro x rfl; rfl)
      | (refine Exists.elim (parse_atomic_potential_ok stod p p1 _ h) ?_; rintro x rfl; rfl)
      | (simp only [read_dimensions, read_max_pop_ratio, read_min_pop_ratio, read_iterations,
           read_tau, read_tau_c_ratio, read_pre_diffusion, add_grid_potential, add_harmonic_well,
           read_exchange_prob, read_cancel_scheme,
           bind_eq_ok, pure, Except.pure, Except.ok.injEq] at h
         obtain ⟨v, -, rfl⟩ := h; rfl)

theorem read_lines_target (stod : List Char → Except Fault D) (lines : List (List Char))
    (hne : ∀ l ∈ lines, (split_whitespace l).head? ≠ some "walkers".toList) :
    ∀ p p1 : params D, read_lines stod p lines = .ok p1 →
      p1.target_population = p.target_population := by
  induction lines with
  | nil => intro p p1 h; cases h; rfl
  | cons line rest ih =>
    intro p p1 h
    rw [read_lines] at h
    cases hp : process_line stod p line with
    | error f => rw [hp] at h; cases h
    | ok p2 =>
      rw [hp] at h
      rw [ih (fun l hl => hne l (List.mem_cons_of_mem _ hl)) p2 p1 h,
        process_line_target stod p line (hne line (List.mem_cons_self _ _)) p2 hp]

/-- What a walkers line with an accepted total does: it sets the per-process
target to the truncated quotient by np. -/
theorem process_line_walkers (stod : List Char → Except Fault D) (q : params D)
    (line tok : List Char) (rest : List (List Char)) (W : Int)
    (hsplit : split_whitespace line = "walkers".toList :: tok :: rest)
    (htok : stoi tok = .ok W) (hnp : 1 ≤ q.np) :
    process_line stod q line = .ok { q with target_population := Int.tdiv W q.np } := by
  unfold process_line
  dsimp only
  rw [hsplit]
  show read_walkers q _ = _
  have hq : walkers_per_process W q.np = .ok (Int.tdiv W q.np) := by
    unfold walkers_per_process
    rw [if_neg (by omega)]
  simp [read_walkers, token, htok, hq, bind, Except.bind, pure, Except.pure]

/-- C5 (as amended): for every input file on which read_input completes, if
the last walkers line of the file gives a total W accepted by stoi with
0 <= W, and the process count is np >= 1, then read_input leaves np as it was
and sets the per-process target to the truncated quotient W / np, and the
reported total target_population * np equals W - (W mod np); it equals W
exactly when np divides W. The walkers line itself never faults. -/
theorem walkers_total_is_rounded_down (stod : List Char → Except Fault D)
    (exchange_symmetry : particle D → particle D → Int) (p p1 : params D)
    (input : Option (List Char)) (pre post : List (List Char)) (line tok : List Char)
    (rest : List (List Char)) (W : Int)
    (hlines : getlines input = pre ++ line :: post)
    (hsplit : split_whitespace line = "walkers".toList :: tok :: rest)
    (htok : stoi tok = .ok W)
    (hlast : ∀ l ∈ post, (split_whitespace l).head? ≠ some "walkers".toList)
    (hW : 0 ≤ W) (hnp : 1 ≤ p.np)
    (h : read_input stod exchange_symmetry p input = .ok p1) :
    p1.np = p.np ∧
    p1.target_population = W / p.np ∧
    total_walkers p1 = W - W % p.np ∧
    (total_walkers p1 = W ↔ p.np ∣ W) ∧
    (∀ q : params D, 1 ≤ q.np →
      process_line stod q line = .ok { q with target_population := W / q.np }) := by
  have hrange := stoi_range tok W htok
  have htotal := total_walkers_of_quotient W p.np hW hrange.2 hnp
  have hnp1 : p1.np = p.np := (read_input_frame stod exchange_symmetry p p1 input h).2.1
  have htarget : p1.target_population = Int.tdiv W p.np := by
    unfold read_input at h
    rw [hlines, read_lines_append] at h
    cases hpre : read_lines stod p pre with
    | error f => rw [hpre] at h; cases h
    | ok q =>
      rw [hpre] at h
      dsimp only at h
      have hq : q.np = p.np := (read_lines_frame stod pre p q hpre).2.1
      rw [read_lines, process_line_walkers stod q line tok rest W hsplit htok (by omega)] at h
      dsimp only at h
      cases hpost : read_lines stod { q with target_population := Int.tdiv W q.np } post with
      | error f => rw [hpost] at h; cases h
      | ok p2 =>
        rw [hpost] at h
        cases h
        show p2.target_population = _
        rw [read_lines_target stod post hlast _ p2 hpost, hq]
  refine ⟨hnp1, ?_, ?_, ?_, ?_⟩
  · rw [htarget]; exact Int.tdiv_eq_ediv hW (by omega)
  · unfold total_walkers
    rw [htarget, hnp1]
    exact htotal
  · unfold total_walkers
    rw [htarget, hnp1, htotal, Int.dvd_iff_emod_eq_zero]
    omega
  · intro q hq
    rw [process_line_walkers stod q line tok rest W hsplit htok hq,
      Int.tdiv_eq_ediv hW (by omega)]

theorem walkers_total_is_rounded_down_witness :
    read_input Decimal.stod sample_symmetry { default_params Decimal with np := 4 }
        (some "dimensions 2\nwalkers 8\nwalkers 1002\ntau 0.02\n".toList)
      = .ok { default_params Decimal with
              np := 4, dimensions := 2, target_population := 250, tau := ⟨2, 2⟩ } ∧
    (250 : Int) = 1002 / 4 ∧
    total_walkers ({ default_params Decimal with
        np := 4, dimensions := 2, target_population := 250, tau := ⟨2, 2⟩ } : params Decimal)
      = 1002 - 1002 % 4 :=
  have h := walkers_total_is_rounded_down Decimal.stod sample_symmetry
    { default_params Decimal with np := 4 }
    { default_params Decimal with
      np := 4, dimensions := 2, target_population := 250, tau := ⟨2, 2⟩ }
    (some "dimensions 2\nwalkers 8\nwalkers 1002\ntau 0.02\n".toList)
    ["dimensions 2".toList, "walkers 8".toList] ["tau 0.02".toList]
    "walkers 1002".toList "1002".toList [] 1002
    (by decide) (by decide) (by decide) (by decide) (by decide) (by decide) (by decide)
  ⟨by decide, h.2.1, h.2.2.1⟩

/-- C5 as stated fails: with 5 walkers requested on 2 processes, read_input
sets the per-process target to 2 and the reported total is 4, not 5; and a
total given on a walkers line that a later walkers line replaces does not
count: with totals 4 and then 6 on 2 processes the reported total is 6. -/
theorem five_walkers_on_two_processes :
    (read_input Decimal.stod sample_symmetry { default_params Decimal with np := 2 }
        (some "walkers 5\n".toList)).map (fun p1 => (p1.target_population, total_walkers p1))
      = .ok (2, 4) ∧ (4 : Int) ≠ 5 ∧
    (read_input Decimal.stod sample_symmetry { default_params Decimal with np := 2 }
        (some "walkers 4\nwalkers 6\n".toList)).map
        (fun p1 => (p1.target_population, total_walkers p1))
      = .ok (3, 6) ∧ (6 : Int) ≠ 4 := by
  decide

end walkers

section loading_lemmas

variable {D : Type}

theorem int_incr_eq (i : Int) (h0 : -2147483648 ≤ i) (h1 : i < 2147483647) :
    int_incr i = i + 1 := by
  unfold int_incr
  omega

end loading_lemmas

section dmc_lemmas

variable {S W : Type}

/-- One pass of the loop body performs the step on the program state and adds
the calls of the iteration, in order, to the log; the snapshot handed to
apply_cancellations and released at the end is the copy of the state the
iteration started from. -/
theorem dmc_body_eq (ops : walker_ops S W) (k : Int) (s : S) (log : List (Int × call W)) :
    dmc_body ops k (s, log) = (dmc_step ops k s, log ++ iteration_calls k (ops.copy k s).1) := by
  simp [dmc_body, record, dmc_step, iteration_calls]

theorem collection_calls_iteration (k : Int) (w : W) :
    collection_calls (iteration_calls k w) =
      [(k, .copy), (k, .diffuse), (k, .apply_cancellations w), (k, .make_exchange_moves),
       (k, .correct_seperations), (k, .branch), (k, .write_output)] := by
  simp [collection_calls, iteration_calls]

/-- However many loop conditions the model evaluates, the log is a whole
number of iterations, each with its calls in order. -/
theorem dmc_loop_log (ops : walker_ops S W) (n : Int) :
    ∀ (fuel : Nat) (k : Int) (s : S) (log : List (Int × call W)),
      ∃ count, count ≤ fuel ∧
        (dmc_loop ops n fuel k (s, log)).log = log ++ expected_log ops count k s ∧
        (dmc_loop ops n fuel k (s, log)).state = state_after ops count k s := by
  intro fuel
  induction fuel with
  | zero => intro k s log; exact ⟨0, le_refl _, by simp [dmc_loop, expected_log], rfl⟩
  | succ fuel ih =>
    intro k s log
    rw [dmc_loop]
    by_cases hk : k ≤ n
    · rw [if_pos hk, dmc_body_eq]
      obtain ⟨count, hc, hlog, hstate⟩ :=
        ih (int_incr k) (dmc_step ops k s) (log ++ iteration_calls k (ops.copy k s).1)
      refine ⟨count + 1, by omega, ?_, ?_⟩
      · rw [hlog, expected_log, List.append_assoc]
      · rw [hstate, state_after]
    · rw [if_neg hk]
      exact ⟨0, Nat.zero_le _, by simp [expected_log], rfl⟩

/-- With enough fuel the loop leaves after exactly `count` iterations when
`count` iterations remain up to the bound. -/
theorem dmc_loop_runs (ops : walker_ops S W) (n : Int) (hn : n < 2147483647) :
    ∀ (count fuel : Nat) (k : Int) (s : S) (log : List (Int × call W)),
      count < fuel → -2147483648 ≤ k → k + count = n + 1 →
      dmc_loop ops n fuel k (s, log) =
        ⟨true, n + 1, state_after ops count k s, log ++ expected_log ops count k s⟩ := by
  intro count
  induction count with
  | zero =>
    intro fuel k s log hf hk hsum
    obtain ⟨fuel, rfl⟩ : ∃ f, fuel = f + 1 := ⟨fuel - 1, by omega⟩
    have hkn : k = n + 1 := by simpa using hsum
    rw [dmc_loop, if_neg (by omega)]
    simp [state_after, expected_log, hkn]
  | succ count ih =>
    intro fuel k s log hf hk hsum
    obtain ⟨fuel, rfl⟩ : ∃ f, fuel = f + 1 := ⟨fuel - 1, by omega⟩
    push_cast at hsum
    rw [dmc_loop, if_pos (by omega), dmc_body_eq,
      ih fuel (int_incr k) _ _ (by omega) (by rw [int_incr_eq k hk (by omega)]; omega)
        (by rw [int_incr_eq k hk (by omega)]; omega)]
    simp [state_after, expected_log, List.append_assoc]

theorem body_runs_iteration_calls (k : Int) (w : W) (rest : List (Int × call W)) :
    body_runs (iteration_calls k w ++ rest) = k :: body_runs rest := by
  simp [body_runs, iteration_calls, List.filterMap_cons, List.filterMap_append]

/-- The iteration numbers of `count` iterations from `k` on, as long as the
counter stays below the largest int. -/
theorem body_runs_expected_log (ops : walker_ops S W) :
    ∀ (count : Nat) (k : Int) (s : S), -2147483648 ≤ k → k + count ≤ 2147483647 →
      body_runs (expected_log ops count k s) = (List.range count).map (fun (i : Nat) => k + (i : Int)) := by
  intro count
  induction count with
  | zero => intro k s _ _; simp [expected_log, body_runs]
  | succ count ih =>
    intro k s hk hsum
    push_cast at hsum
    rw [expected_log, body_runs_iteration_calls, int_incr_eq k hk (by omega),
      ih (k + 1) _ (by omega) (by omega), List.range_succ_eq_map, List.map_cons, List.map_map]
    simp only [Nat.cast_zero, add_zero, List.cons.injEq, true_and]
    apply List.map_congr_left
    intro i _
    simp only [Function.comp, Nat.succ_eq_add_one]
    push_cast
    omega

/-- C1: every iteration of the loop of run_dmc calls, in this order, copy (the
snapshot of the state the iteration starts from), diffuse, apply_cancellations
with that snapshot, make_exchange_moves, correct_seperations, branch and
write_output, and nothing else on the collection (the only further statement
releases the snapshot). For an iteration count n below the largest int and
enough fuel, the log of the whole run is the log of n such iterations numbered
from 1; for any n and any fuel the log is a whole number of such iterations. -/
theorem run_dmc_call_order (ops : walker_ops S W) (n : Int) (walkers : S) (fuel : Nat)
    (hn : n < 2147483647) (hfuel : n.toNat < fuel) :
    (run_dmc ops n walkers fuel).log = expected_log ops n.toNat 1 walkers ∧
    (run_dmc ops n walkers fuel).state = state_after ops n.toNat 1 walkers ∧
    (∀ (k : Int) (s : S) (log : List (Int × call W)),
      dmc_body ops k (s, log) =
        (dmc_step ops k s, log ++ iteration_calls k (ops.copy k s).1)) ∧
    (∀ (k : Int) (w : W),
      collection_calls (iteration_calls k w) =
        [(k, .copy), (k, .diffuse), (k, .apply_cancellations w), (k, .make_exchange_moves),
         (k, .correct_seperations), (k, .branch), (k, .write_output)]) ∧
    (∀ (m : Int) (g : Nat), ∃ count, count ≤ g ∧
      (run_dmc ops m walkers g).log = expected_log ops count 1 walkers ∧
      (run_dmc ops m walkers g).state = state_after ops count 1 walkers) := by
  have hrun : (run_dmc ops n walkers fuel).log = expected_log ops n.toNat 1 walkers ∧
      (run_dmc ops n walkers fuel).state = state_after ops n.toNat 1 walkers := by
    unfold run_dmc
    by_cases h1 : 1 ≤ n
    · rw [dmc_loop_runs ops n hn n.toNat fuel 1 walkers [] hfuel (by omega) (by omega)]
      exact ⟨by simp, rfl⟩
    · obtain ⟨f, rfl⟩ : ∃ f, fuel = f + 1 := ⟨fuel - 1, by omega⟩
      have h0 : n.toNat = 0 := by omega
      rw [dmc_loop, if_neg h1, h0]
      exact ⟨rfl, rfl⟩
  refine ⟨hrun.1, hrun.2, dmc_body_eq ops, collection_calls_iteration, ?_⟩
  intro m g
  obtain ⟨count, hc, hlog, hstate⟩ := dmc_loop_log ops m g 1 walkers []
  exact ⟨count, hc, by simpa using hlog, hstate⟩

theorem run_dmc_call_order_witness :
    (run_dmc sample_ops 2 [3, 5] 3).log =
      [(1, .copy), (1, .diffuse), (1, .apply_cancellations [3, 5]), (1, .make_exchange_moves),
       (1, .correct_seperations), (1, .branch), (1, .write_output), (1, .delete_last [3, 5]),
       (2, .copy), (2, .diffuse), (2, .apply_cancellations [6, 4, 6, 4]),
       (2, .make_exchange_moves), (2, .correct_seperations), (2, .branch), (2, .write_output),
       (2, .delete_last [6, 4, 6, 4])] ∧
    (run_dmc sample_ops 2 [3, 5] 3).log = expected_log sample_ops (2 : Int).toNat 1 [3, 5] :=
  ⟨by decide,
   (run_dmc_call_order sample_ops 2 [3, 5] 3 (by decide) (by decide)).1⟩

/-- C2: for an iteration count n = dmc_iterations below the largest int, the
loop of run_dmc terminates (with enough fuel the loop condition is found
false) after the body has run exactly max(n, 0) times, for the iteration
numbers 1, 2, ..., n in increasing order, and leaves dmc_iteration at
max(n, 0) + 1; this holds for all walker operations and all initial walkers,
so only the iteration count decides when the loop stops. -/
theorem run_dmc_terminates (ops : walker_ops S W) (n : Int) (walkers : S) (fuel : Nat)
    (hn : n < 2147483647) (hfuel : n.toNat < fuel) :
    (run_dmc ops n walkers fuel).finished = true ∧
    body_runs (run_dmc ops n walkers fuel).log
      = (List.range n.toNat).map (fun (i : Nat) => 1 + (i : Int)) ∧
    (body_runs (run_dmc ops n walkers fuel).log).length = n.toNat ∧
    (n.toNat : Int) = max n 0 ∧
    (run_dmc ops n walkers fuel).dmc_iteration = max n 0 + 1 := by
  have hmax : (n.toNat : Int) = max n 0 := by omega
  unfold run_dmc
  by_cases h1 : 1 ≤ n
  · rw [dmc_loop_runs ops n hn n.toNat fuel 1 walkers [] hfuel (by omega) (by omega)]
    have hb := body_runs_expected_log ops n.toNat 1 walkers (by omega) (by omega)
    refine ⟨rfl, ?_, ?_, hmax, ?_⟩
    · simpa using hb
    · simp only [List.nil_append, hb, List.length_map, List.length_range]
    · show n + 1 = max n 0 + 1
      omega
  · obtain ⟨f, rfl⟩ : ∃ f, fuel = f + 1 := ⟨fuel - 1, by omega⟩
    have h0 : n.toNat = 0 := by omega
    rw [dmc_loop, if_neg h1, h0]
    refine ⟨rfl, rfl, rfl, by omega, ?_⟩
    show (1 : Int) = max n 0 + 1
    omega

theorem run_dmc_terminates_witness :
    (run_dmc sample_ops 3 [7] 4).finished = true ∧
    body_runs (run_dmc sample_ops 3 [7] 4).log = [1, 2, 3] ∧
    (run_dmc sample_ops 3 [7] 4).dmc_iteration = 4 :=
  have h := run_dmc_terminates sample_ops 3 [7] 4 (by decide) (by decide)
  ⟨h.1, h.2.1, h.2.2.2.2⟩

end dmc_lemmas

section exchange_lemmas

variable {D : Type}

theorem table_pairs_append (l1 l2 : List (Nat × Nat × Int)) :
    table_pairs (l1 ++ l2) = table_pairs l1 ++ table_pairs l2 := by
  simp [table_pairs, List.flatMap_append]

theorem table_values_append (l1 l2 : List (Nat × Nat × Int)) :
    table_values (l1 ++ l2) = table_values l1 ++ table_values l2 := by
  simp [table_values]

/-- The inner loop over any list of indices j appends the entries of those j. -/
theorem inner_fold (exchange_symmetry : particle D → particle D → Int) (ts : List (particle D))
    (i : Nat) (p1 : particle D) (hi : ts.get? i = some p1) :
    ∀ (js : List Nat) (acc : List Int × List Int),
      js.foldl (fun acc j =>
        match ts.get? j with
        | none => acc
        | some p2 =>
          if exchange_symmetry p1 p2 = 0 then acc
          else (acc.1 ++ [(j : Int), (i : Int)], acc.2 ++ [exchange_symmetry p1 p2])) acc =
      (acc.1 ++ table_pairs (js.filterMap (fun j =>
          if symmetry_at exchange_symmetry ts i j = 0 then none
          else some (j, i, symmetry_at exchange_symmetry ts i j))),
       acc.2 ++ table_values (js.filterMap (fun j =>
          if symmetry_at exchange_symmetry ts i j = 0 then none
          else some (j, i, symmetry_at exchange_symmetry ts i j)))) := by
  intro js
  induction js with
  | nil => intro acc; simp [table_pairs, table_values]
  | cons j js ih =>
    intro acc
    rw [List.foldl_cons, ih]
    cases hj : ts.get? j with
    | none =>
      have hs : symmetry_at exchange_symmetry ts i j = 0 := by
        simp only [symmetry_at, hi, hj]
      simp [List.filterMap_cons, hs]
    | some p2 =>
      have hs : symmetry_at exchange_symmetry ts i j = exchange_symmetry p1 p2 := by
        simp only [symmetry_at, hi, hj]
      by_cases h0 : exchange_symmetry p1 p2 = 0
      · simp [List.filterMap_cons, hs, h0]
      · simp [List.filterMap_cons, hs, h0, table_pairs, table_values]

theorem exchange_inner_eq (exchange_symmetry : particle D → particle D → Int)
    (ts : List (particle D)) (i : Nat) (p1 : particle D) (hi : ts.get? i = some p1)
    (acc : List Int × List Int) :
    exchange_inner exchange_symmetry ts i p1 acc =
      (acc.1 ++ table_pairs (table_row exchange_symmetry ts i),
       acc.2 ++ table_values (table_row exchange_symmetry ts i)) :=
  inner_fold exchange_symmetry ts i p1 hi (List.range i) acc

theorem table_row_of_none (exchange_symmetry : particle D → particle D → Int)
    (ts : List (particle D)) (i : Nat) (hi : ts.get? i = none) :
    table_row exchange_symmetry ts i = [] := by
  have hs : ∀ j, symmetry_at exchange_symmetry ts i j = 0 := by
    intro j; simp only [symmetry_at, hi]
  simp [table_row, hs]

/-- The outer loop over any list of indices i appends the rows of those i. -/
theorem outer_fold (exchange_symmetry : particle D → particle D → Int) (ts : List (particle D)) :
    ∀ (is : List Nat) (acc : List Int × List Int),
      is.foldl (fun acc i =>
        match ts.get? i with
        | none => acc
        | some p1 => exchange_inner exchange_symmetry ts i p1 acc) acc =
      (acc.1 ++ table_pairs (is.flatMap (table_row exchange_symmetry ts)),
       acc.2 ++ table_values (is.flatMap (table_row exchange_symmetry ts))) := by
  intro is
  induction is with
  | nil => intro acc; simp [table_pairs, table_values]
  | cons i is ih =>
    intro acc
    rw [List.foldl_cons, ih, List.flatMap_cons, table_pairs_append, table_values_append]
    cases hi : ts.get? i with
    | none => simp [table_row_of_none exchange_symmetry ts i hi, table_pairs, table_values]
    | some p1 =>
      simp only [exchange_inner_eq exchange_symmetry ts i p1 hi, List.append_assoc]

/-- Closed form of the exchange pass: it appends the pairs and the signs of
the table entries to what the two vectors held before. -/
theorem exchange_loop_eq (exchange_symmetry : particle D → particle D → Int)
    (ts : List (particle D)) (acc : List Int × List Int) :
    exchange_loop exchange_symmetry ts acc =
      (acc.1 ++ table_pairs (table_entries exchange_symmetry ts),
       acc.2 ++ table_values (table_entries exchange_symmetry ts)) :=
  outer_fold exchange_symmetry ts (List.range ts.length) acc

/-- What read_input leaves in the exchange vectors: their previous content
followed by the pairs and signs of the entries of the template it read. -/
theorem read_input_tables (stod : List Char → Except Fault D)
    (exchange_symmetry : particle D → particle D → Int) (p p1 : params D)
    (input : Option (List Char)) (h : read_input stod exchange_symmetry p input = .ok p1) :
    p1.exchange_pairs =
      p.exchange_pairs ++ table_pairs (table_entries exchange_symmetry p1.template_system) ∧
    p1.exchange_values =
      p.exchange_values ++ table_values (table_entries exchange_symmetry p1.template_system) := by
  unfold read_input at h
  cases hl : read_lines stod p (getlines input) with
  | error f => rw [hl] at h; cases h
  | ok p2 =>
    rw [hl] at h
    obtain ⟨-, -, -, e1, e2⟩ := read_lines_frame stod _ p p2 hl
    cases h
    dsimp only
    rw [exchange_loop_eq, e1, e2]
    exact ⟨rfl, rfl⟩

theorem table_pairs_length (l : List (Nat × Nat × Int)) :
    (table_pairs l).length = 2 * l.length := by
  induction l with
  | nil => rfl
  | cons t l ih =>
    have : table_pairs (t :: l) = (t.1 : Int) :: (t.2.1 : Int) :: table_pairs l := rfl
    rw [this, List.length_cons, List.length_cons, List.length_cons, ih]
    omega

theorem table_values_length (l : List (Nat × Nat × Int)) :
    (table_values l).length = l.length := by
  simp [table_values]

/-- Entry k of the list of entries sits at positions 2k and 2k+1 of the pair
list and at position k of the sign list. -/
theorem table_getElem (l : List (Nat × Nat × Int)) :
    ∀ k : Nat,
      (table_pairs l)[2 * k]? = l[k]?.map (fun t => (t.1 : Int)) ∧
      (table_pairs l)[2 * k + 1]? = l[k]?.map (fun t => (t.2.1 : Int)) ∧
      (table_values l)[k]? = l[k]?.map (fun t => t.2.2) := by
  induction l with
  | nil => intro k; simp [table_pairs, table_values]
  | cons t l ih =>
    intro k
    have hp : table_pairs (t :: l) = (t.1 : Int) :: (t.2.1 : Int) :: table_pairs l := rfl
    have hv : table_values (t :: l) = t.2.2 :: table_values l := rfl
    cases k with
    | zero => simp [hp, hv]
    | succ k =>
      obtain ⟨h1, h2, h3⟩ := ih k
      have e1 : 2 * (k + 1) = (2 * k + 1) + 1 := by omega
      have e2 : 2 * (k + 1) + 1 = ((2 * k + 1) + 1) + 1 := by omega
      refine ⟨?_, ?_, ?_⟩
      · rw [hp, e1, List.getElem?_cons_succ, List.getElem?_cons_succ, List.getElem?_cons_succ]
        exact h1
      · rw [hp, e2, List.getElem?_cons_succ, List.getElem?_cons_succ, List.getElem?_cons_succ]
        exact h2
      · rw [hv, List.getElem?_cons_succ, List.getElem?_cons_succ]
        exact h3

theorem mem_table_row (exchange_symmetry : particle D → particle D → Int)
    (ts : List (particle D)) (i a b : Nat) (s : Int) :
    (a, b, s) ∈ table_row exchange_symmetry ts i ↔
      b = i ∧ a < i ∧ s = symmetry_at exchange_symmetry ts i a ∧ s ≠ 0 := by
  unfold table_row
  rw [List.mem_filterMap]
  constructor
  · rintro ⟨j, hj, hg⟩
    rw [List.mem_range] at hj
    split_ifs at hg with h0
    simp only [Option.some.injEq, Prod.mk.injEq] at hg
    obtain ⟨rfl, rfl, rfl⟩ := hg
    exact ⟨rfl, hj, rfl, h0⟩
  · rintro ⟨rfl, ha, rfl, h0⟩
    exact ⟨a, List.mem_range.mpr ha, by rw [if_neg h0]⟩

/-- Membership in the table: exactly the index pairs a < b of the template
with non-zero symmetry, each with its symmetry. -/
theorem mem_table_entries (exchange_symmetry : particle D → particle D → Int)
    (ts : List (particle D)) (a b : Nat) (s : Int) :
    (a, b, s) ∈ table_entries exchange_symmetry ts ↔
      a < b ∧ b < ts.length ∧ s = symmetry_at exchange_symmetry ts b a ∧ s ≠ 0 := by
  unfold table_entries
  rw [List.mem_flatMap]
  constructor
  · rintro ⟨i, hi, hm⟩
    rw [List.mem_range] at hi
    obtain ⟨rfl, ha, hs, h0⟩ := (mem_table_row exchange_symmetry ts i a b s).mp hm
    exact ⟨ha, hi, hs, h0⟩
  · rintro ⟨ha, hb, hs, h0⟩
    exact ⟨b, List.mem_range.mpr hb,
      (mem_table_row exchange_symmetry ts b a b s).mpr ⟨rfl, ha, hs, h0⟩⟩

end exchange_lemmas

section exchange_table

variable {D : Type}

theorem symmetry_at_eq (exchange_symmetry : particle D → particle D → Int)
    (ts : List (particle D)) (a b : Nat) (hb : b < ts.length) (ha : a < b) :
    ∃ pa pb, ts[a]? = some pa ∧ ts[b]? = some pb ∧
      symmetry_at exchange_symmetry ts b a = exchange_symmetry pb pa := by
  have ha2 : a < ts.length := by omega
  refine ⟨ts[a], ts[b], List.getElem?_eq_getElem ha2, List.getElem?_eq_getElem hb, ?_⟩
  simp only [symmetry_at, List.get?_eq_getElem?, List.getElem?_eq_getElem ha2,
    List.getElem?_eq_getElem hb]

/-- C3: starting from empty exchange_pairs and exchange_values, the table
built by read_input is well formed: exchange_pairs has twice as many entries
as exchange_values, and for every k below the number of values the triple
(i, j, sign) at positions 2k, 2k+1 of the pairs and k of the values has
i < j < n (n the number of template particles), sign non-zero, and sign equal
to the exchange symmetry computed between template particles j and i. -/
theorem exchange_table_well_formed (stod : List Char → Except Fault D)
    (exchange_symmetry : particle D → particle D → Int) (p p1 : params D)
    (input : Option (List Char))
    (hp : p.exchange_pairs = []) (hv : p.exchange_values = [])
    (h : read_input stod exchange_symmetry p input = .ok p1) :
    p1.exchange_pairs.length = 2 * p1.exchange_values.length ∧
    ∀ k, k < p1.exchange_values.length →
      ∃ (i j : Nat) (pi pj : particle D),
        p1.exchange_pairs[2 * k]? = some (i : Int) ∧
        p1.exchange_pairs[2 * k + 1]? = some (j : Int) ∧
        i < j ∧ j < p1.template_system.length ∧
        p1.template_system[i]? = some pi ∧ p1.template_system[j]? = some pj ∧
        p1.exchange_values[k]? = some (exchange_symmetry pj pi) ∧
        exchange_symmetry pj pi ≠ 0 := by
  obtain ⟨e1, e2⟩ := read_input_tables stod exchange_symmetry p p1 input h
  rw [hp, List.nil_append] at e1
  rw [hv, List.nil_append] at e2
  rw [e1, e2, table_pairs_length, table_values_length]
  refine ⟨rfl, ?_⟩
  intro k hk
  obtain ⟨g1, g2, g3⟩ := table_getElem (table_entries exchange_symmetry p1.template_system) k
  obtain ⟨⟨a, b, s⟩, hget⟩ :
      ∃ t, (table_entries exchange_symmetry p1.template_system)[k]? = some t :=
    ⟨_, List.getElem?_eq_getElem hk⟩
  have hmem : (a, b, s) ∈ table_entries exchange_symmetry p1.template_system :=
    List.mem_iff_getElem?.mpr ⟨k, hget⟩
  obtain ⟨hab, hbn, hs, h0⟩ := (mem_table_entries exchange_symmetry _ a b s).mp hmem
  obtain ⟨pa, pb, ha, hb, hsym⟩ := symmetry_at_eq exchange_symmetry p1.template_system a b hbn hab
  rw [hget] at g1 g2 g3
  rw [hs, hsym] at g3
  refine ⟨a, b, pa, pb, g1, g2, hab, hbn, ha, hb, g3, ?_⟩
  rw [← hsym, ← hs]
  exact h0

theorem exchange_table_well_formed_witness :
    read_input Decimal.stod sample_symmetry (default_params Decimal) two_electron_input
      = .ok two_electron_params ∧
    two_electron_params.exchange_pairs.length = 2 * two_electron_params.exchange_values.length ∧
    ∀ k, k < two_electron_params.exchange_values.length →
      ∃ (i j : Nat) (pi pj : particle Decimal),
        two_electron_params.exchange_pairs[2 * k]? = some (i : Int) ∧
        two_electron_params.exchange_pairs[2 * k + 1]? = some (j : Int) ∧
        i < j ∧ j < two_electron_params.template_system.length ∧
        two_electron_params.template_system[i]? = some pi ∧
        two_electron_params.template_system[j]? = some pj ∧
        two_electron_params.exchange_values[k]? = some (sample_symmetry pj pi) ∧
        sample_symmetry pj pi ≠ 0 :=
  ⟨by decide,
   exchange_table_well_formed Decimal.stod sample_symmetry (default_params Decimal)
     two_electron_params two_electron_input (by decide) (by decide) (by decide)⟩

end exchange_table

section exchange_complete

variable {D : Type}

theorem table_row_nodup (exchange_symmetry : particle D → particle D → Int)
    (ts : List (particle D)) (i : Nat) : (table_row exchange_symmetry ts i).Nodup := by
  unfold table_row
  refine List.Nodup.filterMap ?_ (List.nodup_range i)
  intro j j2 t h1 h2
  simp only [Option.mem_def] at h1 h2
  split_ifs at h1 h2
  simp only [Option.some.injEq] at h1 h2
  have := congrArg Prod.fst (h1.trans h2.symm)
  exact this

theorem table_entries_nodup (exchange_symmetry : particle D → particle D → Int)
    (ts : List (particle D)) : (table_entries exchange_symmetry ts).Nodup := by
  unfold table_entries
  rw [List.nodup_flatMap]
  refine ⟨fun i _ => table_row_nodup exchange_symmetry ts i, ?_⟩
  refine List.Pairwise.imp ?_ (List.nodup_range ts.length)
  intro i i2 hne
  show List.Disjoint (table_row exchange_symmetry ts i) (table_row exchange_symmetry ts i2)
  rintro ⟨a, b, s⟩ h1 h2
  have e1 := ((mem_table_row exchange_symmetry ts i a b s).mp h1).1
  have e2 := ((mem_table_row exchange_symmetry ts i2 a b s).mp h2).1
  exact hne (e1.symm.trans e2)

/-- No index pair is recorded twice. -/
theorem table_keys_nodup (exchange_symmetry : particle D → particle D → Int)
    (ts : List (particle D)) :
    ((table_entries exchange_symmetry ts).map entry_key).Nodup := by
  refine List.Nodup.map_on ?_ (table_entries_nodup exchange_symmetry ts)
  rintro ⟨a, b, s⟩ hx ⟨a2, b2, s2⟩ hy hkey
  simp only [entry_key, Prod.mk.injEq] at hkey
  obtain ⟨rfl, rfl⟩ := hkey
  have h1 := ((mem_table_entries exchange_symmetry ts a b s).mp hx).2.2.1
  have h2 := ((mem_table_entries exchange_symmetry ts a b s2).mp hy).2.2.1
  rw [h1, h2]

theorem mem_table_keys (exchange_symmetry : particle D → particle D → Int)
    (ts : List (particle D)) (a b : Nat) :
    (a, b) ∈ (table_entries exchange_symmetry ts).map entry_key ↔
      a < b ∧ b < ts.length ∧ symmetry_at exchange_symmetry ts b a ≠ 0 := by
  rw [List.mem_map]
  constructor
  · rintro ⟨⟨a2, b2, s⟩, hm, hkey⟩
    simp only [entry_key, Prod.mk.injEq] at hkey
    obtain ⟨rfl, rfl⟩ := hkey
    obtain ⟨h1, h2, h3, h4⟩ := (mem_table_entries exchange_symmetry ts a2 b2 s).mp hm
    exact ⟨h1, h2, by rw [← h3]; exact h4⟩
  · rintro ⟨h1, h2, h3⟩
    exact ⟨(a, b, symmetry_at exchange_symmetry ts b a),
      (mem_table_entries exchange_symmetry ts a b _).mpr ⟨h1, h2, rfl, h3⟩, rfl⟩

theorem table_keys_toFinset (exchange_symmetry : particle D → particle D → Int)
    (ts : List (particle D)) :
    ((table_entries exchange_symmetry ts).map entry_key).toFinset
      = exchangeable_pairs exchange_symmetry ts := by
  ext ⟨a, b⟩
  rw [List.mem_toFinset, mem_table_keys]
  simp only [exchangeable_pairs, Finset.mem_filter, Finset.mem_product, Finset.mem_range]
  constructor
  · rintro ⟨h1, h2, h3⟩
    exact ⟨⟨by omega, h2⟩, h1, h3⟩
  · rintro ⟨⟨-, h2⟩, h1, h3⟩
    exact ⟨h1, h2, h3⟩

/-- Positions 2k and 2k+1 of the pair list hold a and b exactly when entry k
has the index pair (a, b). -/
theorem table_pairs_at (l : List (Nat × Nat × Int)) (k a b : Nat) :
    ((table_pairs l)[2 * k]? = some (a : Int) ∧ (table_pairs l)[2 * k + 1]? = some (b : Int)) ↔
      (l.map entry_key)[k]? = some (a, b) := by
  obtain ⟨g1, g2, -⟩ := table_getElem l k
  rw [g1, g2, List.getElem?_map]
  cases l[k]? with
  | none => simp
  | some t =>
    simp only [Option.map_some', Option.some.injEq, entry_key, Prod.mk.injEq, Nat.cast_inj]

/-- C4: starting from empty exchange_pairs and exchange_values, the table
built by read_input is complete and free of duplicates: for template indices
a < b, the pair (a, b) is recorded exactly once when the exchange symmetry of
particles b and a is non-zero and not at all when it is zero; so the number of
recorded pairs is the number of index pairs a < b with non-zero symmetry. -/
theorem exchange_table_complete (stod : List Char → Except Fault D)
    (exchange_symmetry : particle D → particle D → Int) (p p1 : params D)
    (input : Option (List Char)) (a b : Nat) (pa pb : particle D)
    (hp : p.exchange_pairs = []) (hv : p.exchange_values = [])
    (h : read_input stod exchange_symmetry p input = .ok p1)
    (hab : a < b) (ha : p1.template_system[a]? = some pa)
    (hb : p1.template_system[b]? = some pb) :
    (exchange_symmetry pb pa ≠ 0 →
      ∃! k, k < p1.exchange_values.length ∧
        p1.exchange_pairs[2 * k]? = some (a : Int) ∧
        p1.exchange_pairs[2 * k + 1]? = some (b : Int)) ∧
    (exchange_symmetry pb pa = 0 →
      ∀ k, ¬ (p1.exchange_pairs[2 * k]? = some (a : Int) ∧
        p1.exchange_pairs[2 * k + 1]? = some (b : Int))) ∧
    p1.exchange_values.length = (exchangeable_pairs exchange_symmetry p1.template_system).card := by
  obtain ⟨e1, e2⟩ := read_input_tables stod exchange_symmetry p p1 input h
  rw [hp, List.nil_append] at e1
  rw [hv, List.nil_append] at e2
  have hbn : b < p1.template_system.length := (List.getElem?_eq_some.mp hb).1
  have hsym : symmetry_at exchange_symmetry p1.template_system b a = exchange_symmetry pb pa := by
    simp only [symmetry_at, List.get?_eq_getElem?, ha, hb]
  have hnodup := table_keys_nodup exchange_symmetry p1.template_system
  have hlen : p1.exchange_values.length
      = ((table_entries exchange_symmetry p1.template_system).map entry_key).length := by
    rw [e2, table_values_length, List.length_map]
  refine ⟨?_, ?_, ?_⟩
  · intro h0
    have hmem : (a, b) ∈ (table_entries exchange_symmetry p1.template_system).map entry_key :=
      (mem_table_keys exchange_symmetry _ a b).mpr ⟨hab, hbn, by rw [hsym]; exact h0⟩
    obtain ⟨k, hk⟩ := List.mem_iff_getElem?.mp hmem
    have hklt := (List.getElem?_eq_some.mp hk).1
    refine ⟨k, ⟨by rw [hlen]; exact hklt, ?_⟩, ?_⟩
    · rw [e1]
      exact (table_pairs_at _ k a b).mpr hk
    · rintro k2 ⟨-, hk2⟩
      rw [e1] at hk2
      have hk2 := (table_pairs_at _ k2 a b).mp hk2
      exact (List.getElem?_inj hklt hnodup (hk.trans hk2.symm)).symm
  · intro h0 k hk
    rw [e1] at hk
    have hk := (table_pairs_at _ k a b).mp hk
    have hmem : (a, b) ∈ (table_entries exchange_symmetry p1.template_system).map entry_key :=
      List.mem_iff_getElem?.mpr ⟨k, hk⟩
    exact ((mem_table_keys exchange_symmetry _ a b).mp hmem).2.2 (by rw [hsym]; exact h0)
  · rw [hlen, ← table_keys_toFinset, List.toFinset_card_of_nodup hnodup]

theorem exchange_table_complete_witness :
    read_input Decimal.stod sample_symmetry (default_params Decimal) two_electron_input
      = .ok two_electron_params ∧
    (∃! k, k < two_electron_params.exchange_values.length ∧
        two_electron_params.exchange_pairs[2 * k]? = some ((0 : Nat) : Int) ∧
        two_electron_params.exchange_pairs[2 * k + 1]? = some ((1 : Nat) : Int)) ∧
    two_electron_params.exchange_values.length
      = (exchangeable_pairs sample_symmetry two_electron_params.template_system).card :=
  have h := exchange_table_complete Decimal.stod sample_symmetry (default_params Decimal)
    two_electron_params two_electron_input 0 1
    ⟨"e".toList, ⟨1, 0⟩, ⟨-1, 0⟩, 1, [⟨0, 0⟩]⟩ ⟨"e".toList, ⟨1, 0⟩, ⟨-1, 0⟩, 1, [⟨2, 0⟩]⟩
    (by decide) (by decide) (by decide) (by decide) (by decide) (by decide)
  ⟨by decide, h.1 (by decide), h.2.2⟩

end exchange_complete

end DMCPP
